import Mathlib

set_option maxHeartbeats 1000000
set_option maxRecDepth 4000

/-! Shallow embedding of the token-budgeted truncation engine of
`src/docetl/utils.py` (`count_tokens`, lines 77-88, and
`truncate_sample_data`, lines 91-154), together with proofs of the
specification's properties.  The tiktoken library is modelled as an
abstract registry of encoders; Python values are modelled by the two
serializations the engine actually observes (`json.dumps` and `str`);
Python slicing, floor division, stable sorting and dict assignment are
modelled explicitly. -/

/-- A tiktoken encoder: encodes a string to an ordered sequence of token
ids and decodes such a sequence back to a string. -/
structure Tokenizer where
  encode : String → List Nat
  decode : List Nat → String

/-- A Python value as the engine observes it: the engine only ever looks
at `json.dumps v` (for the per-field cost) and `str v` (for the elision
encoding and the sort key). -/
structure PyVal where
  dumps : String
  toStr : String
deriving DecidableEq, Repr

/-- The ambient tiktoken registry.  `tiktoken.encoding_for_model name`
either returns an encoder or raises (modelled as `Option`); `gpt4o` is
the encoder obtained by the code's fallback call
`tiktoken.encoding_for_model "gpt-4o"`. -/
structure TikTokenEnv where
  encodingForModel : String → Option Tokenizer
  gpt4o : Tokenizer

/-- Python dict lookup on an association list (first match wins); also
used for the membership test `key in data`. -/
def dictGet {β : Type} (d : List (String × β)) (k : String) : Option β :=
  match d with
  | [] => none
  | (k2, v) :: rest => if k2 = k then some v else dictGet rest k

/-- Python dict assignment `d[k] = v`: overwrite the existing entry in
place, otherwise append at the end (insertion order). -/
def dictSet {β : Type} (d : List (String × β)) (k : String) (v : β) :
    List (String × β) :=
  match d with
  | [] => [(k, v)]
  | (k2, w) :: rest =>
    if k2 = k then (k2, v) :: rest else (k2, w) :: dictSet rest k v

/-- Remove the leftmost non-overlapping occurrences of `pat`, fuelled for
structural termination (each step consumes at least one character, so
fuel equal to the length of the string suffices). -/
def stripAllFuel (pat : List Char) : Nat → List Char → List Char
  | 0, s => s
  | _ + 1, [] => []
  | fuel + 1, c :: rest =>
    if pat ≠ [] ∧ pat.isPrefixOf (c :: rest) then
      stripAllFuel pat fuel ((c :: rest).drop pat.length)
    else
      c :: stripAllFuel pat fuel rest

/-- Python `s.replace(pat, "")`: delete every non-overlapping occurrence
of `pat` in `s`, scanning left to right. -/
def pyReplaceEmpty (s pat : String) : String :=
  String.mk (stripAllFuel pat.toList s.toList.length s.toList)

/-- The shared resolution rule: `tiktoken.encoding_for_model name`, with
the `except` branch falling back to the `gpt-4o` encoder. -/
def getEncoder (env : TikTokenEnv) (name : String) : Tokenizer :=
  (env.encodingForModel name).getD env.gpt4o

/-- The encoder used by `count_tokens` (line 81-87): the model name is
first normalized by `model.replace("azure/", "")`. -/
def countEncoder (env : TikTokenEnv) (model : String) : Tokenizer :=
  getEncoder env (pyReplaceEmpty model "azure/")

/-- `count_tokens(text, model)` (lines 77-88). -/
def count_tokens (env : TikTokenEnv) (text : String) (model : String) : Nat :=
  ((countEncoder env model).encode text).length

/-- The encoder used by the elision step of `truncate_sample_data`
(lines 123-126): resolution uses the raw `model` string, with the same
`gpt-4o` fallback but no `azure/` stripping. -/
def elisionEncoder (env : TikTokenEnv) (model : String) : Tokenizer :=
  getEncoder env model

/-- The candidate serialized form of a field,
`f-string '"<key>": <json.dumps value>'` (line 114). -/
def serializeField (key : String) (v : PyVal) : String :=
  "\"" ++ key ++ "\": " ++ v.dumps

/-- The measured token cost of one field (line 114). -/
def fieldCost (env : TikTokenEnv) (model key : String) (v : PyVal) : Nat :=
  count_tokens env (serializeField key v) model

/-- The literal truncation marker of line 141. -/
def truncationMarker : String := "[....truncated content...]"

/-- Python slice `l[:i]` (stop clamped into range; negative counts from
the end). -/
def pySliceTo {α : Type} (l : List α) (i : Int) : List α :=
  if 0 ≤ i then l.take i.toNat else l.take (l.length - (-i).toNat)

/-- Python slice `l[i:]` (start clamped into range; negative counts from
the end). -/
def pySliceFrom {α : Type} (l : List α) (i : Int) : List α :=
  if 0 ≤ i then l.drop i.toNat else l.drop (l.length - (-i).toNat)

/-- The elided token sequence built at lines 127-143:
`encoded_value[:start_tokens] + encoder.encode(marker) +
encoded_value[-end_tokens:]`, with `tokens_to_keep = remaining - 20`,
`start_tokens = min(tokens_to_keep // 2, field_tokens // 2)` and
`end_tokens = min(tokens_to_keep - start_tokens,
field_tokens - start_tokens)` (Python `//` is floor division). -/
def elideTokens (encoder : Tokenizer) (value : String)
    (remaining_tokens : Int) (field_tokens : Nat) : List Nat :=
  let encoded_value := encoder.encode value
  let tokens_to_keep : Int := remaining_tokens - 20
  let start_tokens : Int :=
    min (tokens_to_keep.fdiv 2) ((field_tokens : Int).fdiv 2)
  let end_tokens : Int :=
    min (tokens_to_keep - start_tokens) ((field_tokens : Int) - start_tokens)
  pySliceTo encoded_value start_tokens
    ++ encoder.encode truncationMarker
    ++ pySliceFrom encoded_value (-end_tokens)

/-- The decoded elided value inserted into the output (line 146/149). -/
def elidedValue (env : TikTokenEnv) (model : String) (v : PyVal)
    (remaining : Int) (ft : Nat) : String :=
  (elisionEncoder env model).decode
    (elideTokens (elisionEncoder env model) v.toStr remaining ft)

/-- The token length charged for the elided value (line 150). -/
def elidedLen (env : TikTokenEnv) (model : String) (v : PyVal)
    (remaining : Int) (ft : Nat) : Nat :=
  (elideTokens (elisionEncoder env model) v.toStr remaining ft).length

/-- Sort key of line 111: `len(str(data.get(k, "")))`. -/
def sortKeyLen (data : List (String × PyVal)) (k : String) : Nat :=
  match dictGet data k with
  | some v => v.toStr.length
  | none => 0

/-- Stable insertion into a descending-sorted list: the new element goes
before the first element whose key is not larger. -/
def insertDesc (kf : String → Nat) (x : String) : List String → List String
  | [] => [x]
  | y :: ys => if kf y ≤ kf x then x :: y :: ys else y :: insertDesc kf x ys

/-- Stable descending sort by `kf`; extensionally equal to Python's
`sorted(l, key=kf, reverse=True)` because both are stable. -/
def sortedDesc (kf : String → Nat) : List String → List String
  | [] => []
  | x :: xs => insertDesc kf x (sortedDesc kf xs)

/-- Line 110-112: `sorted(key_list, key=lambda k:
len(str(data.get(k, ""))), reverse=True)`. -/
def pySortedDesc (data : List (String × PyVal)) (keys : List String) :
    List String :=
  sortedDesc (sortKeyLen data) keys

/-- The output record: each field holds either the original value
(accepted whole, `truncated_data[key] = data[key]`) or the decoded
truncated string. -/
abbrev OutRec := List (String × (PyVal ⊕ String))

/-- Result of the truncation loops.  `cont` means the loop ran off the
end of its keys; `stop` is the early `return truncated_data` of line 152
after eliding one field, additionally recording the `remaining_tokens`
value computed at line 120. -/
inductive StepRes where
  | cont (acc : OutRec) (cur : Nat)
  | stop (acc : OutRec) (cur : Nat) (rem : Int)
deriving DecidableEq

/-- The inner loop of `truncate_sample_data` (lines 110-152) over one
group's sorted key list. -/
def truncKeys (env : TikTokenEnv) (data : List (String × PyVal))
    (avail : Int) (model : String) :
    List String → OutRec → Nat → StepRes
  | [], acc, cur => .cont acc cur
  | key :: rest, acc, cur =>
    match dictGet data key with
    | none => truncKeys env data avail model rest acc cur
    | some v =>
      let field_tokens := fieldCost env model key v
      if ((cur + field_tokens : Nat) : Int) ≤ avail then
        truncKeys env data avail model rest
          (dictSet acc key (Sum.inl v)) (cur + field_tokens)
      else
        let remaining_tokens : Int := avail - (cur : Int)
        .stop (dictSet acc key
            (Sum.inr (elidedValue env model v remaining_tokens field_tokens)))
          (cur + elidedLen env model v remaining_tokens field_tokens)
          remaining_tokens

/-- The outer loop over the priority groups (line 109). -/
def truncGroups (env : TikTokenEnv) (data : List (String × PyVal))
    (avail : Int) (model : String) :
    List (List String) → OutRec → Nat → StepRes
  | [], acc, cur => .cont acc cur
  | g :: gs, acc, cur =>
    match truncKeys env data avail model (pySortedDesc data g) acc cur with
    | .cont acc2 cur2 => truncGroups env data avail model gs acc2 cur2
    | .stop acc2 cur2 rem => .stop acc2 cur2 rem

/-- `truncate_sample_data` with its internal state exposed. -/
def truncateFull (env : TikTokenEnv) (data : List (String × PyVal))
    (avail : Int) (kls : List (List String)) (model : String) : StepRes :=
  truncGroups env data avail model kls [] 0

/-- `truncate_sample_data(data, available_tokens, key_lists, model)`
(lines 91-154): the returned dictionary. -/
def truncate_sample_data (env : TikTokenEnv) (data : List (String × PyVal))
    (avail : Int) (kls : List (List String)) (model : String) : OutRec :=
  match truncateFull env data avail kls model with
  | .cont acc _ => acc
  | .stop acc _ _ => acc

/-- The engine's running token counter at the end of the run. -/
def resCur : StepRes → Nat
  | .cont _ c => c
  | .stop _ c _ => c

/-- The `remaining_tokens` value at the elision point, if any elision
happened. -/
def resRem : StepRes → Option Int
  | .cont _ _ => none
  | .stop _ _ r => some r

/-- Token cost of the truncation marker under the elision encoder. -/
def markerLen (env : TikTokenEnv) (model : String) : Nat :=
  ((elisionEncoder env model).encode truncationMarker).length

/-- Whether an output field holds a truncated string. -/
def isTrunc : PyVal ⊕ String → Bool
  | Sum.inl _ => false
  | Sum.inr _ => true

/-- Number of truncated fields in an output record. -/
def countTrunc (out : OutRec) : Nat :=
  (out.filter (fun p => isTrunc p.2)).length

/-- The measured cost of the field named `k`, zero when absent. -/
def lookupCost (env : TikTokenEnv) (model : String)
    (data : List (String × PyVal)) (k : String) : Nat :=
  match dictGet data k with
  | some v => fieldCost env model k v
  | none => 0

/-- Total measured token cost of the full record. -/
def totalCost (env : TikTokenEnv) (model : String)
    (data : List (String × PyVal)) : Nat :=
  (data.map (fun p => fieldCost env model p.1 p.2)).sum

/-- Sum of the measured costs of a list of key names. -/
def sumLookup (env : TikTokenEnv) (model : String)
    (data : List (String × PyVal)) (keys : List String) : Nat :=
  (keys.map (lookupCost env model data)).sum

/-- Erase the first binding of `k`. -/
def eraseKey (d : List (String × PyVal)) (k : String) :
    List (String × PyVal) :=
  match d with
  | [] => []
  | (k2, v) :: rest => if k2 = k then rest else (k2, v) :: eraseKey rest k

/-- What the inner loop produces when every key fits: each present field
accepted whole, in order. -/
def acceptAll (data : List (String × PyVal)) :
    List String → OutRec → OutRec
  | [], acc => acc
  | k :: rest, acc =>
    match dictGet data k with
    | some v => acceptAll data rest (dictSet acc k (Sum.inl v))
    | none => acceptAll data rest acc

/-- What the outer loop produces when every field of every group fits. -/
def acceptGroups (data : List (String × PyVal)) :
    List (List String) → OutRec → OutRec
  | [], acc => acc
  | g :: gs, acc => acceptGroups data gs (acceptAll data (pySortedDesc data g) acc)

/-- Modelled from the spec, for refinement comparison only (spec 4.2,
elision procedure): "Encode the full value to a token sequence of length
`fieldTokens`. `startTokens = min(keepable / 2, fieldTokens / 2)`
(integer division), `endTokens = min(keepable - startTokens, fieldTokens
- startTokens)`.  Build the elided token sequence = first `startTokens`
tokens of the value ++ marker tokens ++ last `endTokens` tokens of the
value." -/
def specElideTokens (encoder : Tokenizer) (value : String)
    (remaining : Int) : List Nat :=
  let enc := encoder.encode value
  let fieldTokens : Int := enc.length
  let keepable : Int := remaining - 20
  let startTokens : Int := min (keepable.fdiv 2) (fieldTokens.fdiv 2)
  let endTokens : Int :=
    min (keepable - startTokens) (fieldTokens - startTokens)
  enc.take startTokens.toNat
    ++ encoder.encode truncationMarker
    ++ enc.drop (enc.length - endTokens.toNat)

/-! Concrete instances used by witnesses and counterexamples: a
character-level tokenizer (one token per character), an environment in
which no model name resolves so everything uses the fallback, and an
environment distinguishing a registered bare name from its
`azure/`-prefixed form. -/

/-- One token per character. -/
def charTok : Tokenizer where
  encode s := s.toList.map Char.toNat
  decode l := String.mk (l.map Char.ofNat)

/-- Registry in which nothing resolves: every lookup falls back to the
`gpt-4o` encoder, here `charTok`. -/
def charEnv : TikTokenEnv where
  encodingForModel := fun _ => none
  gpt4o := charTok

/-- An encoder that charges one token per character of the input. -/
def tokA : Tokenizer where
  encode s := List.replicate s.length 1
  decode _ := "A"

/-- An encoder that charges nothing. -/
def tokB : Tokenizer where
  encode _ := []
  decode _ := "B"

/-- Registry in which the bare name `gpt-4` resolves to `tokA` but its
`azure/`-prefixed form does not resolve at all; the fallback is `tokB`. -/
def azureEnv : TikTokenEnv where
  encodingForModel := fun s => if s = "gpt-4" then some tokA else none
  gpt4o := tokB

/-- A string field value of thirty `x` characters. -/
def xs30 : String := String.mk (List.replicate 30 'x')

/-- The record value used by the budget counterexample: a plain string
of thirty characters, serialized with surrounding quotes. -/
def val1 : PyVal := ⟨"\"" ++ xs30 ++ "\"", xs30⟩

/-- A string field value of sixty `x` characters. -/
def xs60 : String := String.mk (List.replicate 60 'x')

/-- The record value used by the amended-budget witness. -/
def valW1 : PyVal := ⟨"\"" ++ xs60 ++ "\"", xs60⟩

/-- A value whose `str` form (4 tokens under `charTok`) is much shorter
than its measured serialized cost (35 tokens): used to separate the
code's elision from the specification's formula. -/
def val3 : PyVal := ⟨String.mk (List.replicate 30 'y'), "abcd"⟩

/-- A forty-character value used by the amended elision-formula witness. -/
def vs40 : String := String.mk (List.replicate 40 'v')

/-- A string field value of twenty-eight `z` characters. -/
def zs28 : String := String.mk (List.replicate 28 'z')

/-- The record value used by the degenerate-tail-slice instance. -/
def val9 : PyVal := ⟨"\"" ++ zs28 ++ "\"", zs28⟩

/-- A small value of measured cost 12 under `charEnv`. -/
def val7 : PyVal := ⟨"\"wwwww\"", "wwwww"⟩

/-- A small value of measured cost 12 under `charEnv` (key `a`). -/
def valA : PyVal := ⟨"\"aaaaa\"", "aaaaa"⟩

/-- A small value of measured cost 13 under `charEnv` (key `b`). -/
def valB : PyVal := ⟨"\"bbbbbb\"", "bbbbbb"⟩

/-- A small value used by the duplicate-charge witness. -/
def val10 : PyVal := ⟨"\"uuuuu\"", "uuuuu"⟩

/-- Every field of the accumulator is an original value of the input
record: the state of the output dict before any elision happens. -/
def CleanAcc (data : List (String × PyVal)) (acc : OutRec) : Prop :=
  ∀ p ∈ acc, ∃ v, dictGet data p.1 = some v ∧ p.2 = Sum.inl v

/-- Every output field comes from the input record, holding either the
original value or some truncated string, and at most one field is
truncated. -/
def ShapeOut (data : List (String × PyVal)) (out : OutRec) : Prop :=
  (∀ p ∈ out, ∃ v, dictGet data p.1 = some v ∧
      (p.2 = Sum.inl v ∨ ∃ s, p.2 = Sum.inr s)) ∧
  countTrunc out ≤ 1

/-! Helper lemmas about the dictionary model. -/

theorem dictGet_dictSet {β : Type} (d : List (String × β)) (k : String)
    (v : β) (j : String) :
    dictGet (dictSet d k v) j = if k = j then some v else dictGet d j := by
  induction d with
  | nil =>
    by_cases hj : k = j <;> simp [dictGet, dictSet, hj]
  | cons p rest ih =>
    obtain ⟨k2, w⟩ := p
    by_cases h : k2 = k
    · subst h
      simp only [dictSet, if_pos rfl]
      by_cases hj : k2 = j
      · subst hj; simp [dictGet]
      · simp [dictGet, hj]
    · simp only [dictSet, if_neg h]
      by_cases hj : k2 = j
      · subst hj
        have hkj : ¬ (k = k2) := fun hh => h hh.symm
        simp [dictGet, hkj]
      · simp [dictGet, hj, ih]

theorem mem_dictSet {β : Type} (d : List (String × β)) (k : String) (v : β)
    (p : String × β) (hp : p ∈ dictSet d k v) : p ∈ d ∨ p = (k, v) := by
  induction d with
  | nil =>
    simp only [dictSet, List.mem_singleton] at hp
    exact Or.inr hp
  | cons q rest ih =>
    obtain ⟨k2, w⟩ := q
    by_cases h : k2 = k
    · subst h
      simp only [dictSet, if_pos rfl] at hp
      rcases List.mem_cons.mp hp with h1 | h1
      · exact Or.inr h1
      · exact Or.inl (List.mem_cons_of_mem _ h1)
    · simp only [dictSet, if_neg h] at hp
      rcases List.mem_cons.mp hp with h1 | h1
      · exact Or.inl (h1 ▸ List.mem_cons_self _ _)
      · rcases ih h1 with h2 | h2
        · exact Or.inl (List.mem_cons_of_mem _ h2)
        · exact Or.inr h2

/-! Early-return structure of the two loops. -/

theorem truncKeys_append (env : TikTokenEnv) (data : List (String × PyVal))
    (avail : Int) (model : String) (keys more : List String) :
    ∀ acc cur, truncKeys env data avail model (keys ++ more) acc cur =
      match truncKeys env data avail model keys acc cur with
      | .cont a c => truncKeys env data avail model more a c
      | .stop a c r => .stop a c r := by
  induction keys with
  | nil => intro acc cur; simp [truncKeys]
  | cons k rest ih =>
    intro acc cur
    simp only [List.cons_append, truncKeys]
    cases hd : dictGet data k with
    | none => exact ih acc cur
    | some v =>
      by_cases hfit : ((cur + fieldCost env model k v : Nat) : Int) ≤ avail
      · simp only [if_pos hfit]
        exact ih _ _
      · simp only [if_neg hfit]

theorem truncGroups_append (env : TikTokenEnv) (data : List (String × PyVal))
    (avail : Int) (model : String) (kls more : List (List String)) :
    ∀ acc cur, truncGroups env data avail model (kls ++ more) acc cur =
      match truncGroups env data avail model kls acc cur with
      | .cont a c => truncGroups env data avail model more a c
      | .stop a c r => .stop a c r := by
  induction kls with
  | nil => intro acc cur; simp [truncGroups]
  | cons g gs ih =>
    intro acc cur
    simp only [List.cons_append, truncGroups]
    cases truncKeys env data avail model (pySortedDesc data g) acc cur with
    | cont a c => exact ih a c
    | stop a c r => rfl

/-! Shape invariants of the output record. -/

theorem countTrunc_eq_zero (out : OutRec)
    (h : ∀ p ∈ out, isTrunc p.2 = false) : countTrunc out = 0 := by
  unfold countTrunc
  have : out.filter (fun p => isTrunc p.2) = [] := by
    rw [List.filter_eq_nil_iff]
    intro p hp
    simp [h p hp]
  rw [this]
  rfl

theorem countTrunc_dictSet_inr (acc : OutRec) (k : String) (s : String)
    (h : ∀ p ∈ acc, isTrunc p.2 = false) :
    countTrunc (dictSet acc k (Sum.inr s)) ≤ 1 := by
  induction acc with
  | nil => simp [dictSet, countTrunc, isTrunc, List.filter]
  | cons q rest ih =>
    obtain ⟨k2, w⟩ := q
    by_cases hk : k2 = k
    · subst hk
      have hset : dictSet ((k2, w) :: rest) k2 (Sum.inr s) =
          (k2, Sum.inr s) :: rest := by
        simp [dictSet]
      rw [hset]
      have hrest : countTrunc rest = 0 :=
        countTrunc_eq_zero rest (fun p hp => h p (List.mem_cons_of_mem _ hp))
      have hcons : countTrunc ((k2, Sum.inr s) :: rest) = countTrunc rest + 1 := by
        simp [countTrunc, List.filter_cons, isTrunc]
      rw [hcons, hrest]
    · simp only [dictSet, if_neg hk]
      have hw : isTrunc w = false := h (k2, w) (List.mem_cons_self _ _)
      have hstep : countTrunc ((k2, w) :: dictSet rest k (Sum.inr s)) =
          countTrunc (dictSet rest k (Sum.inr s)) := by
        simp [countTrunc, List.filter, hw]
      rw [hstep]
      exact ih (fun p hp => h p (List.mem_cons_of_mem _ hp))

theorem cleanAcc_isTrunc_false (data : List (String × PyVal)) (acc : OutRec)
    (h : CleanAcc data acc) : ∀ p ∈ acc, isTrunc p.2 = false := by
  intro p hp
  obtain ⟨v, _, hv⟩ := h p hp
  rw [hv]
  rfl

theorem truncKeys_shape (env : TikTokenEnv) (data : List (String × PyVal))
    (avail : Int) (model : String) :
    ∀ keys (acc : OutRec) (cur : Nat), CleanAcc data acc →
      (∀ out c, truncKeys env data avail model keys acc cur = .cont out c →
        CleanAcc data out) ∧
      (∀ out c r, truncKeys env data avail model keys acc cur = .stop out c r →
        ShapeOut data out) := by
  intro keys
  induction keys with
  | nil =>
    intro acc cur hacc
    constructor
    · intro out c hout
      simp only [truncKeys] at hout
      cases hout
      exact hacc
    · intro out c r hout
      exact absurd hout (by simp [truncKeys])
  | cons k rest ih =>
    intro acc cur hacc
    simp only [truncKeys]
    cases hd : dictGet data k with
    | none => exact ih acc cur hacc
    | some v =>
      by_cases hfit : ((cur + fieldCost env model k v : Nat) : Int) ≤ avail
      · simp only [if_pos hfit]
        apply ih
        intro p hp
        rcases mem_dictSet _ _ _ _ hp with h1 | h1
        · exact hacc p h1
        · exact ⟨v, by rw [h1]; exact hd, by rw [h1]⟩
      · simp only [if_neg hfit]
        constructor
        · intro out c hout
          exact absurd hout (by simp)
        · intro out c r hout
          simp only [StepRes.stop.injEq] at hout
          obtain ⟨hout1, _, _⟩ := hout
          subst hout1
          constructor
          · intro p hp
            rcases mem_dictSet _ _ _ _ hp with h1 | h1
            · obtain ⟨w, hw1, hw2⟩ := hacc p h1
              exact ⟨w, hw1, Or.inl hw2⟩
            · refine ⟨v, by rw [h1]; exact hd, Or.inr ?_⟩
              rw [h1]
              exact ⟨_, rfl⟩
          · exact countTrunc_dictSet_inr _ _ _ (cleanAcc_isTrunc_false data acc hacc)

theorem truncGroups_shape (env : TikTokenEnv) (data : List (String × PyVal))
    (avail : Int) (model : String) :
    ∀ kls (acc : OutRec) (cur : Nat), CleanAcc data acc →
      (∀ out c, truncGroups env data avail model kls acc cur = .cont out c →
        CleanAcc data out) ∧
      (∀ out c r, truncGroups env data avail model kls acc cur = .stop out c r →
        ShapeOut data out) := by
  intro kls
  induction kls with
  | nil =>
    intro acc cur hacc
    constructor
    · intro out c hout
      simp only [truncGroups] at hout
      cases hout
      exact hacc
    · intro out c r hout
      exact absurd hout (by simp [truncGroups])
  | cons g gs ih =>
    intro acc cur hacc
    simp only [truncGroups]
    cases hk : truncKeys env data avail model (pySortedDesc data g) acc cur with
    | cont a c =>
      exact ih a c ((truncKeys_shape env data avail model _ acc cur hacc).1 a c hk)
    | stop a c r =>
      constructor
      · intro out c2 hout
        exact absurd hout (by simp)
      · intro out c2 r2 hout
        simp only [StepRes.stop.injEq] at hout
        obtain ⟨h1, _, _⟩ := hout
        subst h1
        exact (truncKeys_shape env data avail model _ acc cur hacc).2 a c r hk

/-! The engine reads the record only through `dictGet`, so its output is
determined by the lookup function; together with a permutation lemma
this gives independence from the input record's key order. -/

theorem sortKeyLen_ext (d1 d2 : List (String × PyVal))
    (h : ∀ k, dictGet d1 k = dictGet d2 k) :
    sortKeyLen d1 = sortKeyLen d2 := by
  funext k
  unfold sortKeyLen
  rw [h k]

theorem truncKeys_ext (env : TikTokenEnv) (d1 d2 : List (String × PyVal))
    (avail : Int) (model : String)
    (h : ∀ k, dictGet d1 k = dictGet d2 k) :
    ∀ keys acc cur, truncKeys env d1 avail model keys acc cur =
      truncKeys env d2 avail model keys acc cur := by
  intro keys
  induction keys with
  | nil => intro acc cur; rfl
  | cons k rest ih =>
    intro acc cur
    simp only [truncKeys, h k]
    cases dictGet d2 k with
    | none => exact ih acc cur
    | some v =>
      by_cases hfit : ((cur + fieldCost env model k v : Nat) : Int) ≤ avail
      · simp only [if_pos hfit]
        exact ih _ _
      · simp only [if_neg hfit]

theorem truncGroups_ext (env : TikTokenEnv) (d1 d2 : List (String × PyVal))
    (avail : Int) (model : String)
    (h : ∀ k, dictGet d1 k = dictGet d2 k) :
    ∀ kls acc cur, truncGroups env d1 avail model kls acc cur =
      truncGroups env d2 avail model kls acc cur := by
  intro kls
  induction kls with
  | nil => intro acc cur; rfl
  | cons g gs ih =>
    intro acc cur
    have hsort : pySortedDesc d1 g = pySortedDesc d2 g := by
      unfold pySortedDesc
      rw [sortKeyLen_ext d1 d2 h]
    simp only [truncGroups, hsort, truncKeys_ext env d1 d2 avail model h]
    cases truncKeys env d2 avail model (pySortedDesc d2 g) acc cur with
    | cont a c => exact ih a c
    | stop a c r => rfl

theorem dictGet_eq_of_perm (d1 d2 : List (String × PyVal)) (hp : d1.Perm d2) :
    (d1.map Prod.fst).Nodup → ∀ k, dictGet d1 k = dictGet d2 k := by
  induction hp with
  | nil => intro _ k; rfl
  | cons x hp2 ih =>
    intro hnd k
    obtain ⟨kx, vx⟩ := x
    simp only [dictGet]
    by_cases hk : kx = k
    · simp [hk]
    · simp only [if_neg hk]
      exact ih (by simp only [List.map_cons, List.nodup_cons] at hnd; exact hnd.2) k
  | swap x y l =>
    intro hnd k
    obtain ⟨kx, vx⟩ := x
    obtain ⟨ky, vy⟩ := y
    have hxy : ky ≠ kx := by
      simp only [List.map_cons, List.nodup_cons, List.mem_cons] at hnd
      exact fun hh => hnd.1 (Or.inl hh)
    simp only [dictGet]
    by_cases h1 : ky = k <;> by_cases h2 : kx = k
    · exact absurd (h1.trans h2.symm) hxy
    · rw [if_pos h1, if_neg h2, if_pos h1]
    · rw [if_neg h1, if_pos h2, if_pos h2]
    · rw [if_neg h1, if_neg h2, if_neg h2, if_neg h1]
  | trans hp1 hp2 ih1 ih2 =>
    intro hnd k
    rw [ih1 hnd k]
    exact ih2 (((hp1.map Prod.fst).nodup_iff).mp hnd) k

/-! Budget accounting.  When the elision point still has at least 21
tokens remaining, the elided token sequence fits in the remaining budget
minus the 20-token reservation, plus the marker's actual token cost. -/

theorem elideTokens_length_le (encoder : Tokenizer) (value : String)
    (remaining : Int) (ft : Nat) (h21 : 21 ≤ remaining)
    (hbig : remaining < (ft : Int)) :
    ((elideTokens encoder value remaining ft).length : Int) ≤
      (remaining - 20) + ((encoder.encode truncationMarker).length : Int) := by
  have h2 : (0:Int) ≤ 2 := by norm_num
  have hfd1 : (remaining - 20).fdiv 2 = (remaining - 20) / 2 :=
    Int.fdiv_eq_ediv _ h2
  have hfd2 : ((ft : Int)).fdiv 2 = (ft : Int) / 2 := Int.fdiv_eq_ediv _ h2
  simp only [elideTokens]
  set l := encoder.encode value with hl
  set st : Int := min ((remaining - 20).fdiv 2) ((ft : Int).fdiv 2) with hst
  set en : Int := min ((remaining - 20) - st) ((ft : Int) - st) with hen
  have hst0 : 0 ≤ st := by
    rw [hst, hfd1, hfd2]
    exact le_min (Int.ediv_nonneg (by omega) (by norm_num))
      (Int.ediv_nonneg (by omega) (by norm_num))
  have hstle : st ≤ (remaining - 20) / 2 := by
    rw [hst, hfd1]
    exact min_le_left _ _
  have hstft : st ≤ (ft : Int) / 2 := by
    rw [hst, hfd2]
    exact min_le_right _ _
  have hen1 : 1 ≤ en := by
    rw [hen]
    exact le_min (by omega) (by omega)
  have henle : en ≤ (remaining - 20) - st := by
    rw [hen]
    exact min_le_left _ _
  have hto : ((pySliceTo l st).length : Int) ≤ st := by
    rw [pySliceTo, if_pos hst0]
    have h1 : (l.take st.toNat).length ≤ st.toNat := by
      simp [List.length_take]
    calc ((l.take st.toNat).length : Int) ≤ (st.toNat : Int) := by
          exact_mod_cast h1
      _ = st := Int.toNat_of_nonneg hst0
  have hfrom : ((pySliceFrom l (-en)).length : Int) ≤ en := by
    rw [pySliceFrom, if_neg (by omega), neg_neg]
    have h1 : (l.drop (l.length - en.toNat)).length ≤ en.toNat := by
      simp only [List.length_drop]
      omega
    calc ((l.drop (l.length - en.toNat)).length : Int) ≤ (en.toNat : Int) := by
          exact_mod_cast h1
      _ = en := Int.toNat_of_nonneg (by omega)
  rw [List.length_append, List.length_append]
  push_cast
  push_cast at hto hfrom
  omega

theorem truncKeys_budget (env : TikTokenEnv) (data : List (String × PyVal))
    (avail : Int) (model : String) :
    ∀ keys (acc : OutRec) (cur : Nat), (cur : Int) ≤ avail →
      (∀ out c, truncKeys env data avail model keys acc cur = .cont out c →
        (c : Int) ≤ avail) ∧
      (∀ out c r, truncKeys env data avail model keys acc cur = .stop out c r →
        21 ≤ r → (c : Int) ≤ avail - 20 + (markerLen env model : Int)) := by
  intro keys
  induction keys with
  | nil =>
    intro acc cur hcur
    constructor
    · intro out c hout
      simp only [truncKeys] at hout
      cases hout
      exact hcur
    · intro out c r hout
      exact absurd hout (by simp [truncKeys])
  | cons k rest ih =>
    intro acc cur hcur
    simp only [truncKeys]
    cases hd : dictGet data k with
    | none => exact ih acc cur hcur
    | some v =>
      by_cases hfit : ((cur + fieldCost env model k v : Nat) : Int) ≤ avail
      · simp only [if_pos hfit]
        exact ih _ _ hfit
      · simp only [if_neg hfit]
        constructor
        · intro out c hout
          exact absurd hout (by simp)
        · intro out c r hout h21
          simp only [StepRes.stop.injEq] at hout
          obtain ⟨_, hc, hr⟩ := hout
          subst hc
          subst hr
          have hbig : avail - (cur : Int) < (fieldCost env model k v : Int) := by
            push_cast at hfit
            omega
          have hlen := elideTokens_length_le (elisionEncoder env model) v.toStr
            (avail - (cur : Int)) (fieldCost env model k v) h21 hbig
          unfold elidedLen
          unfold markerLen
          push_cast
          push_cast at hlen
          omega

theorem truncGroups_budget (env : TikTokenEnv) (data : List (String × PyVal))
    (avail : Int) (model : String) :
    ∀ kls (acc : OutRec) (cur : Nat), (cur : Int) ≤ avail →
      (∀ out c, truncGroups env data avail model kls acc cur = .cont out c →
        (c : Int) ≤ avail) ∧
      (∀ out c r, truncGroups env data avail model kls acc cur = .stop out c r →
        21 ≤ r → (c : Int) ≤ avail - 20 + (markerLen env model : Int)) := by
  intro kls
  induction kls with
  | nil =>
    intro acc cur hcur
    constructor
    · intro out c hout
      simp only [truncGroups] at hout
      cases hout
      exact hcur
    · intro out c r hout
      exact absurd hout (by simp [truncGroups])
  | cons g gs ih =>
    intro acc cur hcur
    simp only [truncGroups]
    cases hk : truncKeys env data avail model (pySortedDesc data g) acc cur with
    | cont a c =>
      exact ih a c
        ((truncKeys_budget env data avail model _ acc cur hcur).1 a c hk)
    | stop a c r =>
      constructor
      · intro out c2 hout
        exact absurd hout (by simp)
      · intro out c2 r2 hout h21
        simp only [StepRes.stop.injEq] at hout
        obtain ⟨_, hc, hr⟩ := hout
        subst hc
        subst hr
        exact (truncKeys_budget env data avail model _ acc cur hcur).2 a c r hk h21

/-! When everything fits, the run accepts every present field whole. -/

theorem insertDesc_perm (kf : String → Nat) (x : String) :
    ∀ l : List String, (insertDesc kf x l).Perm (x :: l) := by
  intro l
  induction l with
  | nil => simp [insertDesc]
  | cons y ys ih =>
    simp only [insertDesc]
    by_cases h : kf y ≤ kf x
    · rw [if_pos h]
    · rw [if_neg h]
      exact (ih.cons y).trans (List.Perm.swap x y ys)

theorem sortedDesc_perm (kf : String → Nat) :
    ∀ l : List String, (sortedDesc kf l).Perm l := by
  intro l
  induction l with
  | nil => simp [sortedDesc]
  | cons x xs ih =>
    simp only [sortedDesc]
    exact (insertDesc_perm kf x (sortedDesc kf xs)).trans (ih.cons x)

theorem sumLookup_perm (env : TikTokenEnv) (model : String)
    (data : List (String × PyVal)) (l1 l2 : List String) (h : l1.Perm l2) :
    sumLookup env model data l1 = sumLookup env model data l2 :=
  (h.map (lookupCost env model data)).sum_eq

theorem mem_sortedDesc (kf : String → Nat) (l : List String) (j : String) :
    j ∈ sortedDesc kf l ↔ j ∈ l :=
  (sortedDesc_perm kf l).mem_iff

theorem truncKeys_fits (env : TikTokenEnv) (data : List (String × PyVal))
    (avail : Int) (model : String) :
    ∀ keys (acc : OutRec) (cur : Nat),
      ((cur + sumLookup env model data keys : Nat) : Int) ≤ avail →
      truncKeys env data avail model keys acc cur =
        .cont (acceptAll data keys acc) (cur + sumLookup env model data keys) := by
  intro keys
  induction keys with
  | nil =>
    intro acc cur h
    simp [truncKeys, acceptAll, sumLookup]
  | cons k rest ih =>
    intro acc cur h
    simp only [truncKeys, acceptAll]
    cases hd : dictGet data k with
    | none =>
      have hsum : sumLookup env model data (k :: rest) =
          sumLookup env model data rest := by
        simp [sumLookup, lookupCost, hd]
      rw [hsum] at h ⊢
      exact ih acc cur h
    | some v =>
      have hsum : sumLookup env model data (k :: rest) =
          fieldCost env model k v + sumLookup env model data rest := by
        simp [sumLookup, lookupCost, hd]
      have hfit : ((cur + fieldCost env model k v : Nat) : Int) ≤ avail := by
        rw [hsum] at h
        push_cast at h ⊢
        omega
      simp only [if_pos hfit]
      rw [ih (dictSet acc k (Sum.inl v)) (cur + fieldCost env model k v)
        (by rw [hsum] at h; push_cast at h ⊢; omega)]
      rw [hsum]
      congr 1
      omega

theorem acceptAll_dictGet (data : List (String × PyVal)) :
    ∀ (keys : List String) (acc : OutRec) (j : String),
      dictGet (acceptAll data keys acc) j =
        if j ∈ keys ∧ (dictGet data j).isSome
        then (dictGet data j).map Sum.inl
        else dictGet acc j := by
  intro keys
  induction keys with
  | nil =>
    intro acc j
    simp [acceptAll]
  | cons k rest ih =>
    intro acc j
    simp only [acceptAll]
    cases hd : dictGet data k with
    | none =>
      rw [ih acc j]
      by_cases hj : j = k
      · subst hj
        simp [hd]
      · simp [List.mem_cons, hj]
    | some v =>
      rw [ih (dictSet acc k (Sum.inl v)) j, dictGet_dictSet]
      by_cases hj : j = k
      · subst hj
        by_cases hjr : j ∈ rest
        · simp [hjr, hd]
        · simp [hjr, hd]
      · have hkj : ¬ (k = j) := fun hh => hj hh.symm
        by_cases hjr : j ∈ rest
        · simp [List.mem_cons, hj, hjr, hkj]
        · simp [List.mem_cons, hj, hjr, hkj]

theorem truncGroups_fits (env : TikTokenEnv) (data : List (String × PyVal))
    (avail : Int) (model : String) :
    ∀ kls (acc : OutRec) (cur : Nat),
      ((cur + (kls.map (sumLookup env model data)).sum : Nat) : Int) ≤ avail →
      truncGroups env data avail model kls acc cur =
        .cont (acceptGroups data kls acc)
          (cur + (kls.map (sumLookup env model data)).sum) := by
  intro kls
  induction kls with
  | nil =>
    intro acc cur h
    simp [truncGroups, acceptGroups]
  | cons g gs ih =>
    intro acc cur h
    simp only [truncGroups, acceptGroups]
    have hsorted : sumLookup env model data (pySortedDesc data g) =
        sumLookup env model data g :=
      sumLookup_perm env model data _ _ (sortedDesc_perm (sortKeyLen data) g)
    have hnat : (cur + sumLookup env model data g) +
        (List.map (sumLookup env model data) gs).sum =
        cur + (List.map (sumLookup env model data) (g :: gs)).sum := by
      simp only [List.map_cons, List.sum_cons]
      omega
    have hfits : ((cur + sumLookup env model data (pySortedDesc data g) : Nat) : Int)
        ≤ avail := by
      rw [hsorted]
      refine le_trans ?_ h
      have hmono : cur + sumLookup env model data g ≤
          cur + (List.map (sumLookup env model data) (g :: gs)).sum := by
        simp only [List.map_cons, List.sum_cons]
        omega
      exact_mod_cast hmono
    have heq := truncKeys_fits env data avail model (pySortedDesc data g) acc cur hfits
    simp only [heq]
    have hnext : (((cur + sumLookup env model data (pySortedDesc data g)) +
        (List.map (sumLookup env model data) gs).sum : Nat) : Int) ≤ avail := by
      rw [hsorted, hnat]
      exact h
    rw [ih _ _ hnext, hsorted, hnat]

theorem acceptGroups_dictGet (data : List (String × PyVal)) :
    ∀ (kls : List (List String)) (acc : OutRec) (j : String),
      dictGet (acceptGroups data kls acc) j =
        if j ∈ kls.flatten ∧ (dictGet data j).isSome
        then (dictGet data j).map Sum.inl
        else dictGet acc j := by
  intro kls
  induction kls with
  | nil =>
    intro acc j
    simp [acceptGroups]
  | cons g gs ih =>
    intro acc j
    simp only [acceptGroups]
    rw [ih (acceptAll data (pySortedDesc data g) acc) j,
      acceptAll_dictGet data (pySortedDesc data g) acc j]
    have hmem : j ∈ pySortedDesc data g ↔ j ∈ g :=
      mem_sortedDesc (sortKeyLen data) g j
    by_cases hs : (dictGet data j).isSome
    · by_cases hgs : j ∈ gs.flatten
      · simp [List.flatten_cons, hgs, hs]
      · by_cases hg : j ∈ g
        · simp [List.flatten_cons, hgs, hg, hs, hmem]
        · simp [List.flatten_cons, hgs, hg, hs, hmem]
    · simp [hs, hmem]

theorem dictGet_eraseKey_ne (d : List (String × PyVal)) (k j : String)
    (h : j ≠ k) : dictGet (eraseKey d k) j = dictGet d j := by
  induction d with
  | nil => rfl
  | cons p rest ih =>
    obtain ⟨k2, v⟩ := p
    by_cases hk : k2 = k
    · subst hk
      have he : eraseKey ((k2, v) :: rest) k2 = rest := by
        simp [eraseKey]
      rw [he]
      simp only [dictGet]
      rw [if_neg (show ¬ (k2 = j) from fun hh => h hh.symm)]
    · simp only [eraseKey, if_neg hk, dictGet]
      by_cases hj : k2 = j
      · rw [if_pos hj, if_pos hj]
      · rw [if_neg hj, if_neg hj]
        exact ih

theorem totalCost_eraseKey (env : TikTokenEnv) (model : String) :
    ∀ (d : List (String × PyVal)) (k : String) (v : PyVal),
      dictGet d k = some v →
      totalCost env model d =
        fieldCost env model k v + totalCost env model (eraseKey d k) := by
  intro d
  induction d with
  | nil => intro k v h; exact absurd h (by simp [dictGet])
  | cons p rest ih =>
    intro k v h
    obtain ⟨k2, w⟩ := p
    by_cases hk : k2 = k
    · subst hk
      have hget : dictGet ((k2, w) :: rest) k2 = some w := by
        simp [dictGet]
      rw [hget, Option.some.injEq] at h
      subst h
      simp [eraseKey, totalCost]
    · simp only [dictGet, if_neg hk] at h
      simp only [eraseKey, if_neg hk, totalCost, List.map_cons, List.sum_cons]
      have := ih k v h
      simp only [totalCost] at this
      omega

theorem sumLookup_congr_erase (env : TikTokenEnv) (model : String)
    (d : List (String × PyVal)) (k : String) (l : List String)
    (h : k ∉ l) :
    sumLookup env model d l = sumLookup env model (eraseKey d k) l := by
  unfold sumLookup
  congr 1
  apply List.map_congr_left
  intro j hj
  unfold lookupCost
  rw [dictGet_eraseKey_ne d k j (fun hh => h (hh ▸ hj))]

theorem sumLookup_le_totalCost (env : TikTokenEnv) (model : String) :
    ∀ (l : List String) (data : List (String × PyVal)), l.Nodup →
      sumLookup env model data l ≤ totalCost env model data := by
  intro l
  induction l with
  | nil => intro data _; simp [sumLookup]
  | cons k rest ih =>
    intro data hnd
    rw [List.nodup_cons] at hnd
    cases hd : dictGet data k with
    | none =>
      have : sumLookup env model data (k :: rest) =
          sumLookup env model data rest := by
        simp [sumLookup, lookupCost, hd]
      rw [this]
      exact ih data hnd.2
    | some v =>
      have hsum : sumLookup env model data (k :: rest) =
          fieldCost env model k v + sumLookup env model data rest := by
        simp [sumLookup, lookupCost, hd]
      rw [hsum, sumLookup_congr_erase env model data k rest hnd.1,
        totalCost_eraseKey env model data k v hd]
      have := ih (eraseKey data k) hnd.2
      omega

/-! Claim theorems. -/

/-- C8: for every text and model string, `count_tokens` returns a
non-negative integer and never raises; when no tokenizer is registered
for the prefix-stripped model name it silently falls back to the fixed
default (`gpt-4o`) tokenizer profile.  Totality in the embedding
reflects that the Python function catches every resolution failure. -/
theorem count_tokens_total_fallback (env : TikTokenEnv) (text model : String)
    (h : env.encodingForModel (pyReplaceEmpty model "azure/") = none) :
    0 ≤ (count_tokens env text model : Int) ∧
    count_tokens env text model = (env.gpt4o.encode text).length := by
  constructor
  · exact Int.ofNat_nonneg _
  · unfold count_tokens countEncoder getEncoder
    rw [h]
    rfl

/-- Witness for C8 at a model name with no registered tokenizer. -/
theorem count_tokens_total_fallback_witness :
    0 ≤ (count_tokens charEnv "hello" "mystery-model" : Int) ∧
    count_tokens charEnv "hello" "mystery-model" =
      (charEnv.gpt4o.encode "hello").length :=
  count_tokens_total_fallback charEnv "hello" "mystery-model" rfl

/-- C6 counterexample: with `gpt-4` registered (as `tokA`) but its
`azure/`-prefixed form unregistered, `count_tokens` strips the prefix
and uses `tokA`, while the elision step resolves the raw string and
falls back to the default `tokB`: the two steps use different
tokenizers for the same model string, contradicting the claim that both
resolve under the same prefix-stripping rule. -/
theorem elision_resolution_cex :
    count_tokens azureEnv "x" "azure/gpt-4" = 1 ∧
    ((elisionEncoder azureEnv "azure/gpt-4").encode "x").length = 0 ∧
    (elisionEncoder azureEnv "azure/gpt-4").decode [] ≠
      (countEncoder azureEnv "azure/gpt-4").decode [] ∧
    elisionEncoder azureEnv "azure/gpt-4" ≠ countEncoder azureEnv "azure/gpt-4" := by
  refine ⟨by decide, by rfl, by decide, ?_⟩
  intro hcontra
  have h2 := congrArg (fun t => (t.encode "x").length) hcontra
  exact absurd h2 (by decide)

/-- C6 amended: the elision step resolves its tokenizer from the raw
(unstripped) model string with the same `gpt-4o` fallback; whenever the
model string contains no occurrence of the provider prefix (so stripping
is the identity), the elision step and `count_tokens` resolve the same
tokenizer. -/
theorem elision_resolution_amended (env : TikTokenEnv) (model : String)
    (h : pyReplaceEmpty model "azure/" = model) :
    elisionEncoder env model = countEncoder env model := by
  unfold elisionEncoder countEncoder
  rw [h]

/-- Witness for the amended C6 at a prefix-free model name. -/
theorem elision_resolution_amended_witness :
    elisionEncoder charEnv "gpt-4o" = countEncoder charEnv "gpt-4o" :=
  elision_resolution_amended charEnv "gpt-4o" (by decide)

/-- C9: with budget 20 and a first field whose cost exceeds it, elision
triggers with `remaining = 20`, so `end_tokens = 0` and the Python tail
slice `encoded_value[-0:]` is the whole encoding: the returned elided
field is the marker followed by the entire original value, and is at
least as long as the untruncated value. -/
theorem degenerate_tail_slice :
    truncateFull charEnv [("a", val9)] 20 [["a"]] "m" =
      .stop [("a", Sum.inr (truncationMarker ++ zs28))]
        (truncationMarker.length + 28) 20 ∧
    pySliceFrom (charTok.encode zs28) (-(0 : Int)) = charTok.encode zs28 ∧
    val9.toStr.length ≤ (truncationMarker ++ zs28).length := by
  refine ⟨by decide, by decide, by decide⟩

/-- C1 counterexample: with budget exactly 20 (so `budget ≥ 20` holds)
and a single field of cost 37, elision triggers with `remaining = 20`,
`tokens_to_keep = 0`, and the tail slice `[-0:]` keeps the whole
30-token value: the engine's total is 56 tokens, exceeding the budget
by 36 — more than the marker's own 26-token cost, hence more than any
rounding slack from the 20-token marker reservation. -/
theorem budget_not_respected_cex :
    (20 : Int) ≤ 20 ∧
    truncateFull charEnv [("k", val1)] 20 [["k"]] "m" =
      .stop [("k", Sum.inr (truncationMarker ++ xs30))] 56 20 ∧
    (20 : Int) + (markerLen charEnv "m" : Int) < 56 := by
  refine ⟨by decide, by decide, by decide⟩

/-- C1 amended: for a non-negative budget, if every elision happens
with at least 21 tokens still remaining, the engine's final token
counter exceeds the budget by at most `max 0 (markerTokens - 20)` —
in particular it stays within the budget whenever the marker costs at
most 20 tokens.  (Without the remaining-tokens proviso the bound fails:
see the counterexample, where `remaining = 20` makes the tail slice
degenerate.) -/
theorem budget_respected_amended (env : TikTokenEnv)
    (data : List (String × PyVal)) (avail : Int) (kls : List (List String))
    (model : String) (h0 : 0 ≤ avail)
    (hrem : ∀ r, resRem (truncateFull env data avail kls model) = some r →
      21 ≤ r) :
    (resCur (truncateFull env data avail kls model) : Int) ≤
      max avail (avail - 20 + (markerLen env model : Int)) := by
  have hbase : ((0 : Nat) : Int) ≤ avail := by exact_mod_cast h0
  have hb := truncGroups_budget env data avail model kls [] 0 hbase
  cases hres : truncateFull env data avail kls model with
  | cont out c =>
    have := hb.1 out c hres
    simp only [resCur]
    exact le_trans this (le_max_left _ _)
  | stop out c r =>
    have h21 : 21 ≤ r := hrem r (by rw [hres]; rfl)
    have := hb.2 out c r hres h21
    simp only [resCur]
    exact le_trans this (le_max_right _ _)

/-- Witness for the amended C1: a run whose single elision happens with
41 tokens remaining; the final counter is 47 = 41 - 20 + 26, exactly
the amended bound. -/
theorem budget_respected_amended_witness :
    (resCur (truncateFull charEnv [("k", valW1)] 41 [["k"]] "m") : Int) ≤
      max 41 (41 - 20 + (markerLen charEnv "m" : Int)) := by
  refine budget_respected_amended charEnv [("k", valW1)] 41 [["k"]] "m"
    (by norm_num) ?_
  intro r hr
  have hval : resRem (truncateFull charEnv [("k", valW1)] 41 [["k"]] "m") =
      some 41 := by decide
  rw [hval, Option.some.injEq] at hr
  omega

/-- C3 counterexample: the claim asserts that the encoding sliced in the
elision step has length `fieldTokens`, and that the elided sequence is
literally "first `startTokens` ++ marker ++ last `endTokens`" of it.
In the code `field_tokens` measures the serialized `"key": json` form
(35 tokens here) while the sliced encoding is of `str(value)` (4 tokens
here); with 30 tokens remaining the code returns the whole value on both
sides of the marker, while the specification's formula predicts a
2-token head and 2-token tail. -/
theorem elision_formula_cex :
    truncate_sample_data charEnv [("k", val3)] 30 [["k"]] "m" =
      [("k", Sum.inr ("abcd" ++ truncationMarker ++ "abcd"))] ∧
    charTok.decode (specElideTokens charTok "abcd" 30) =
      "ab" ++ truncationMarker ++ "cd" ∧
    ("abcd" ++ truncationMarker ++ "abcd" : String) ≠
      "ab" ++ truncationMarker ++ "cd" ∧
    (charTok.encode val3.toStr).length ≠ fieldCost charEnv "m" "k" val3 := by
  refine ⟨by decide, by decide, by decide, by decide⟩

/-- C3 amended: when the sliced encoding really does have length
`field_tokens` (as the spec assumes) and the elision point has at least
21 tokens remaining with a non-empty encoding, the code's elided token
sequence coincides with the specification's "first `startTokens` ++
marker ++ last `endTokens`" formula. -/
theorem elision_formula_amended (encoder : Tokenizer) (value : String)
    (remaining : Int) (ft : Nat)
    (hlen : (encoder.encode value).length = ft)
    (h21 : 21 ≤ remaining) (hft : 1 ≤ ft) :
    elideTokens encoder value remaining ft =
      specElideTokens encoder value remaining := by
  have h2 : (0:Int) ≤ 2 := by norm_num
  have hfd1 : (remaining - 20).fdiv 2 = (remaining - 20) / 2 :=
    Int.fdiv_eq_ediv _ h2
  have hfd2 : ((ft : Int)).fdiv 2 = (ft : Int) / 2 := Int.fdiv_eq_ediv _ h2
  simp only [elideTokens, specElideTokens, hlen]
  set l := encoder.encode value with hl
  set st : Int := min ((remaining - 20).fdiv 2) ((ft : Int).fdiv 2) with hst
  set en : Int := min ((remaining - 20) - st) ((ft : Int) - st) with hen
  have hst0 : 0 ≤ st := by
    rw [hst, hfd1, hfd2]
    exact le_min (Int.ediv_nonneg (by omega) (by norm_num))
      (Int.ediv_nonneg (by omega) (by norm_num))
  have hstle : st ≤ (remaining - 20) / 2 := by
    rw [hst, hfd1]
    exact min_le_left _ _
  have hstft : st ≤ (ft : Int) / 2 := by
    rw [hst, hfd2]
    exact min_le_right _ _
  have hen1 : 1 ≤ en := by
    rw [hen]
    exact le_min (by omega) (by omega)
  congr 1
  · rw [pySliceTo, if_pos hst0]
  · rw [pySliceFrom, if_neg (by omega), neg_neg, hlen]

/-- C2: every returned field's key comes from the input record, and maps
either to its original value or (for at most one field) to a truncated
string; after an elision the run stops, so appending further priority
groups cannot change the output. -/
theorem output_shape_invariant (env : TikTokenEnv)
    (data : List (String × PyVal)) (avail : Int) (kls : List (List String))
    (model : String) :
    (∀ p ∈ truncate_sample_data env data avail kls model,
        ∃ v, dictGet data p.1 = some v ∧
          (p.2 = Sum.inl v ∨ ∃ s, p.2 = Sum.inr s)) ∧
    countTrunc (truncate_sample_data env data avail kls model) ≤ 1 ∧
    (∀ acc cur rem more,
        truncateFull env data avail kls model = .stop acc cur rem →
        truncate_sample_data env data avail (kls ++ more) model =
          truncate_sample_data env data avail kls model) := by
  have hclean : CleanAcc data ([] : OutRec) := by
    intro p hp
    exact absurd hp (List.not_mem_nil p)
  have hsh := truncGroups_shape env data avail model kls [] 0 hclean
  cases hres : truncGroups env data avail model kls [] 0 with
  | cont out c =>
    have hout : truncate_sample_data env data avail kls model = out := by
      simp only [truncate_sample_data, truncateFull, hres]
    have hcl := hsh.1 out c hres
    refine ⟨?_, ?_, ?_⟩
    · rw [hout]
      intro p hp
      obtain ⟨v, hv1, hv2⟩ := hcl p hp
      exact ⟨v, hv1, Or.inl hv2⟩
    · rw [hout, countTrunc_eq_zero out (cleanAcc_isTrunc_false data out hcl)]
      omega
    · intro acc cur rem more heq
      simp only [truncateFull, hres] at heq
      exact absurd heq (by simp)
  | stop out c r =>
    have hout : truncate_sample_data env data avail kls model = out := by
      simp only [truncate_sample_data, truncateFull, hres]
    have hshape := hsh.2 out c r hres
    refine ⟨?_, ?_, ?_⟩
    · rw [hout]
      exact hshape.1
    · rw [hout]
      exact hshape.2
    · intro acc cur rem more heq
      have hmore : truncate_sample_data env data avail (kls ++ more) model = out := by
        simp only [truncate_sample_data, truncateFull,
          truncGroups_append env data avail model kls more ([] : OutRec) 0, hres]
      rw [hmore, hout]

/-- Witness for C2: the at-most-one-truncation bound and the hard-stop
group-append equation at a concrete elided run. -/
theorem output_shape_invariant_witness :
    countTrunc (truncate_sample_data charEnv [("k", val1)] 20 [["k"]] "m") ≤ 1 ∧
    truncate_sample_data charEnv [("k", val1)] 20 ([["k"]] ++ [["j"]]) "m" =
      truncate_sample_data charEnv [("k", val1)] 20 [["k"]] "m" := by
  constructor
  · exact (output_shape_invariant charEnv [("k", val1)] 20 [["k"]] "m").2.1
  · exact (output_shape_invariant charEnv [("k", val1)] 20 [["k"]] "m").2.2
      [("k", Sum.inr (truncationMarker ++ xs30))] 56 20 [["j"]] (by decide)

/-- C4: with two priority groups `[[a], [b]]` where `a` fits alone, `b`
fits alone, but the two together exceed the budget, the run accepts `a`
whole and elides `b`; the reverse cannot happen because the result is
fully determined. -/
theorem priority_ordering (env : TikTokenEnv) (model : String) (avail : Int)
    (data : List (String × PyVal)) (a b : String) (va vb : PyVal)
    (hab : a ≠ b) (ha : dictGet data a = some va)
    (hb : dictGet data b = some vb)
    (hA : (fieldCost env model a va : Int) ≤ avail)
    (_hB : (fieldCost env model b vb : Int) ≤ avail)
    (hAB : avail <
      (fieldCost env model a va : Int) + (fieldCost env model b vb : Int)) :
    truncateFull env data avail [[a], [b]] model =
      .stop [(a, Sum.inl va),
        (b, Sum.inr (elidedValue env model vb
          (avail - (fieldCost env model a va : Int))
          (fieldCost env model b vb)))]
        (fieldCost env model a va +
          elidedLen env model vb (avail - (fieldCost env model a va : Int))
            (fieldCost env model b vb))
        (avail - (fieldCost env model a va : Int)) := by
  have hsorta : pySortedDesc data [a] = [a] := by
    simp [pySortedDesc, sortedDesc, insertDesc]
  have hsortb : pySortedDesc data [b] = [b] := by
    simp [pySortedDesc, sortedDesc, insertDesc]
  have hfb : ¬ (((fieldCost env model a va + fieldCost env model b vb : Nat) :
      Int) ≤ avail) := by
    push_cast
    omega
  simp only [truncateFull, truncGroups, hsorta, hsortb, truncKeys, ha, hb,
    Nat.zero_add, dictSet, if_pos hA, if_neg hfb]
  rw [if_neg hab]

/-- Witness for C4: key `a` (cost 12) and key `b` (cost 13) with budget
20; the run keeps `a` whole and elides `b`. -/
theorem priority_ordering_witness :
    truncateFull charEnv [("a", valA), ("b", valB)] 20 [["a"], ["b"]] "m" =
      .stop [("a", Sum.inl valA),
        ("b", Sum.inr (elidedValue charEnv "m" valB
          (20 - (fieldCost charEnv "m" "a" valA : Int))
          (fieldCost charEnv "m" "b" valB)))]
        (fieldCost charEnv "m" "a" valA +
          elidedLen charEnv "m" valB
            (20 - (fieldCost charEnv "m" "a" valA : Int))
            (fieldCost charEnv "m" "b" valB))
        (20 - (fieldCost charEnv "m" "a" valA : Int)) :=
  priority_ordering charEnv "m" 20 [("a", valA), ("b", valB)] "a" "b" valA valB
    (by decide) (by decide) (by decide) (by decide) (by decide) (by decide)

/-- C5: the output is independent of the input record's key order (two
records with the same bindings in permuted order produce identical
output), and within one group the field with the longer stringified
value is attempted first regardless of the group's listing order — in
particular, when it alone exceeds the budget it becomes the single
elided field and the shorter field is never reached. -/
theorem tiebreak_determinism (env : TikTokenEnv) (model : String)
    (avail : Int) :
    (∀ (d1 d2 : List (String × PyVal)) (kls : List (List String)),
        d1.Perm d2 → (d1.map Prod.fst).Nodup →
        truncate_sample_data env d1 avail kls model =
          truncate_sample_data env d2 avail kls model) ∧
    (∀ (data : List (String × PyVal)) (x y : String) (vx vy : PyVal),
        dictGet data x = some vx → dictGet data y = some vy →
        vy.toStr.length < vx.toStr.length →
        avail < (fieldCost env model x vx : Int) →
        truncateFull env data avail [[y, x]] model =
          .stop [(x, Sum.inr (elidedValue env model vx avail
              (fieldCost env model x vx)))]
            (elidedLen env model vx avail (fieldCost env model x vx)) avail ∧
        truncateFull env data avail [[y, x]] model =
          truncateFull env data avail [[x, y]] model) := by
  constructor
  · intro d1 d2 kls hperm hnd
    have hget := dictGet_eq_of_perm d1 d2 hperm hnd
    unfold truncate_sample_data truncateFull
    rw [truncGroups_ext env d1 d2 avail model hget kls [] 0]
  · intro data x y vx vy hx hy hlen hbig
    have hkfx : sortKeyLen data x = vx.toStr.length := by
      simp [sortKeyLen, hx]
    have hkfy : sortKeyLen data y = vy.toStr.length := by
      simp [sortKeyLen, hy]
    have hsort1 : pySortedDesc data [y, x] = [x, y] := by
      simp only [pySortedDesc, sortedDesc, insertDesc, hkfx, hkfy]
      rw [if_neg (by omega)]
    have hsort2 : pySortedDesc data [x, y] = [x, y] := by
      simp only [pySortedDesc, sortedDesc, insertDesc, hkfx, hkfy]
      rw [if_pos (by omega)]
    have hnofit : ¬ (((fieldCost env model x vx : Nat) : Int) ≤ avail) := by
      omega
    constructor
    · simp only [truncateFull, truncGroups, hsort1, truncKeys, hx,
        if_neg hnofit, dictSet, Nat.zero_add, Nat.cast_zero, sub_zero]
    · simp only [truncateFull, truncGroups, hsort1, hsort2]

/-- Witness for C5: permuting a two-field record does not change the
output, and listing the shorter field first in the group still elides
the longer one. -/
theorem tiebreak_determinism_witness :
    truncate_sample_data charEnv [("a", valA), ("b", valB)] 9
        [["a", "b"]] "m" =
      truncate_sample_data charEnv [("b", valB), ("a", valA)] 9
        [["a", "b"]] "m" ∧
    truncateFull charEnv [("a", valA), ("b", valB)] 9 [["a", "b"]] "m" =
      .stop [("b", Sum.inr (elidedValue charEnv "m" valB 9
          (fieldCost charEnv "m" "b" valB)))]
        (elidedLen charEnv "m" valB 9 (fieldCost charEnv "m" "b" valB)) 9 ∧
    truncateFull charEnv [("a", valA), ("b", valB)] 9 [["a", "b"]] "m" =
      truncateFull charEnv [("a", valA), ("b", valB)] 9 [["b", "a"]] "m" := by
  have h := tiebreak_determinism charEnv "m" 9
  have h2 := h.2 [("a", valA), ("b", valB)] "b" "a" valB valA
    (by decide) (by decide) (by decide) (by decide)
  exact ⟨h.1 [("a", valA), ("b", valB)] [("b", valB), ("a", valA)]
    [["a", "b"]] (List.Perm.swap _ _ _) (by decide), h2.1, h2.2⟩

/-- C10: a field name occurring in two priority groups is charged to the
running counter once per occurrence even though the output contains it
only once: when both charges fit, the final counter is twice the field's
cost while the output is the single accepted field. -/
theorem duplicate_key_double_charge (env : TikTokenEnv) (model : String)
    (avail : Int) (data : List (String × PyVal)) (k : String) (v : PyVal)
    (hget : dictGet data k = some v)
    (hfit : ((fieldCost env model k v + fieldCost env model k v : Nat) : Int)
      ≤ avail) :
    truncateFull env data avail [[k], [k]] model =
      .cont [(k, Sum.inl v)]
        (fieldCost env model k v + fieldCost env model k v) := by
  have hsort : pySortedDesc data [k] = [k] := by
    simp [pySortedDesc, sortedDesc, insertDesc]
  have h1 : ((fieldCost env model k v : Nat) : Int) ≤ avail := by
    push_cast at hfit ⊢
    omega
  simp only [truncateFull, truncGroups, hsort, truncKeys, hget, Nat.zero_add,
    dictSet, if_pos h1, if_pos hfit]
  rw [if_pos trivial]

/-- Witness for C10: cost-12 field accepted through both groups with
budget 30; the counter ends at 24. -/
theorem duplicate_key_double_charge_witness :
    truncateFull charEnv [("k", val10)] 30 [["k"], ["k"]] "m" =
      .cont [("k", Sum.inl val10)]
        (fieldCost charEnv "m" "k" val10 + fieldCost charEnv "m" "k" val10) :=
  duplicate_key_double_charge charEnv "m" 30 [("k", val10)] "k" val10
    (by decide) (by decide)

theorem sumLookup_flatten (env : TikTokenEnv) (model : String)
    (data : List (String × PyVal)) :
    ∀ kls : List (List String),
      sumLookup env model data kls.flatten =
        (kls.map (sumLookup env model data)).sum := by
  intro kls
  induction kls with
  | nil => rfl
  | cons g gs ih =>
    simp only [List.flatten_cons, List.map_cons, List.sum_cons, sumLookup,
      List.map_append, List.sum_append] at ih ⊢
    omega

/-- C7 counterexample: the same key in two priority groups with a budget
exactly equal to the record's total cost (12): the duplicate charge
exhausts the budget, so the second pass elides the field and the output
is the marker string, not the field in full — the claimed idempotence
fails even though the budget covers the whole record. -/
theorem noop_budget_cex :
    (totalCost charEnv "m" [("k", val7)] : Int) ≤ 12 ∧
    truncateFull charEnv [("k", val7)] 12 [["k"], ["k"]] "m" =
      .stop [("k", Sum.inr truncationMarker)] 38 0 ∧
    dictGet (truncate_sample_data charEnv [("k", val7)] 12 [["k"], ["k"]] "m")
        "k" ≠ some (Sum.inl val7) := by
  refine ⟨by decide, by decide, by decide⟩

/-- C7 amended: when no field name is repeated across the priority
groups and the budget covers the total measured cost of the record, the
run finishes without elision and the output is exactly the input
restricted to the keys appearing in the groups, every field in full. -/
theorem noop_budget_amended (env : TikTokenEnv) (model : String)
    (data : List (String × PyVal)) (avail : Int) (kls : List (List String))
    (hnd : kls.flatten.Nodup)
    (hbud : (totalCost env model data : Int) ≤ avail) :
    truncateFull env data avail kls model =
      .cont (acceptGroups data kls [])
        ((kls.map (sumLookup env model data)).sum) ∧
    ∀ j, dictGet (acceptGroups data kls []) j =
      if j ∈ kls.flatten then (dictGet data j).map Sum.inl else none := by
  have hbound : (kls.map (sumLookup env model data)).sum ≤
      totalCost env model data := by
    rw [← sumLookup_flatten env model data kls]
    exact sumLookup_le_totalCost env model kls.flatten data hnd
  have hfit : ((0 + (kls.map (sumLookup env model data)).sum : Nat) : Int)
      ≤ avail := by
    refine le_trans ?_ hbud
    exact_mod_cast Nat.le_trans (by omega) hbound
  have h1 := truncGroups_fits env data avail model kls [] 0 hfit
  rw [Nat.zero_add] at h1
  constructor
  · exact h1
  · intro j
    rw [acceptGroups_dictGet data kls [] j]
    by_cases hj : j ∈ kls.flatten
    · cases hd : dictGet data j with
      | none =>
        rw [if_neg (fun hh => absurd hh.2 (by simp)), if_pos hj]
        rfl
      | some v =>
        rw [if_pos ⟨hj, rfl⟩, if_pos hj]
    · rw [if_neg (fun hh => hj hh.1), if_neg hj]
      rfl

/-- Witness for the amended C7: two distinct fields over two groups,
generous budget; result is both fields in full. -/
theorem noop_budget_amended_witness :
    truncateFull charEnv [("a", valA), ("b", valB)] 100 [["a"], ["b"]] "m" =
      .cont (acceptGroups [("a", valA), ("b", valB)] [["a"], ["b"]] [])
        (([["a"], ["b"]].map
          (sumLookup charEnv "m" [("a", valA), ("b", valB)])).sum) ∧
    dictGet (acceptGroups [("a", valA), ("b", valB)] [["a"], ["b"]] []) "a" =
      if "a" ∈ ([["a"], ["b"]] : List (List String)).flatten
      then (dictGet [("a", valA), ("b", valB)] "a").map Sum.inl
      else none := by
  have h := noop_budget_amended charEnv "m" [("a", valA), ("b", valB)] 100
    [["a"], ["b"]] (by decide) (by decide)
  exact ⟨h.1, h.2 "a"⟩

/-- Witness for the amended C3: a forty-character value whose encoding
length equals the supplied `field_tokens`, elided with 30 tokens
remaining; code and specification formulas agree. -/
theorem elision_formula_amended_witness :
    elideTokens charTok vs40 30 40 = specElideTokens charTok vs40 30 :=
  elision_formula_amended charTok vs40 30 40 (by decide) (by decide)
    (by decide)
